import Mathlib

/-!
Verification development for the cbordata crate: a shallow embedding of the
error type and identifier-extraction helper from `src/lib.rs`, together with a
model of the CBOR value type, encoder and decoder described by the design
specification (the `cbor` and `types` modules are not part of the provided
sources, so those parts are modelled from the spec).
-/

namespace Cbordata

/-- Error variants from `src/lib.rs`: each carries a location prefix and a
human-readable message. -/
inductive Error where
  | Fatal : String → String → Error
  | FailConvert : String → String → Error
  | IOError : String → String → Error
  | FailCbor : String → String → Error
deriving DecidableEq

/-- The location-prefix component carried by an `Error` value. -/
def Error.prefixOf : Error → String
  | .Fatal p _ => p
  | .FailConvert p _ => p
  | .IOError p _ => p
  | .FailCbor p _ => p

/-- The human-readable message component carried by an `Error` value. -/
def Error.message : Error → String
  | .Fatal _ m => m
  | .FailConvert _ m => m
  | .IOError _ m => m
  | .FailCbor _ m => m

/-- The name of the variant, as it appears in the `Display` output. -/
def Error.kindName : Error → String
  | .Fatal _ _ => "Fatal"
  | .FailConvert _ _ => "FailConvert"
  | .IOError _ _ => "IOError"
  | .FailCbor _ _ => "FailCbor"

/-- Shallow embedding of `impl fmt::Display for Error` from `src/lib.rs`:
each arm formats as the prefix, a space, the variant name, a colon-space and
the message. -/
def Error.display : Error → String
  | .Fatal p m => p ++ " Fatal: " ++ m
  | .FailConvert p m => p ++ " FailConvert: " ++ m
  | .IOError p m => p ++ " IOError: " ++ m
  | .FailCbor p m => p ++ " FailCbor: " ++ m

/-- The four variant names the `err_at!` macro can be instantiated with. -/
inductive ErrVariant where
  | Fatal | FailConvert | IOError | FailCbor
deriving DecidableEq

/-- Build the `Error` value `Error::$v(prefix, msg)` for a variant name. -/
def ErrVariant.build : ErrVariant → String → String → Error
  | .Fatal, p, m => .Fatal p m
  | .FailConvert, p, m => .FailConvert p m
  | .IOError, p, m => .IOError p m
  | .FailCbor, p, m => .FailCbor p m

/-- Shallow embedding of the `err_at!($v, msg: ...)` arm of the macro in
`src/lib.rs`: the prefix is `format!("{}:{}", file!(), line!())` and the
formatted message is passed through. -/
def errAtMsg (v : ErrVariant) (file : String) (line : Nat) (msg : String) : Error :=
  v.build (file ++ ":" ++ toString line) msg

/-- Modelled from the spec: the additional-info selector (the 5-bit field of a
header byte) of the missing `cbor` module — an inline tiny value 0–23, a
1/2/4/8-byte extension marker, one of the three reserved codes 28–30, or the
indefinite-length marker. -/
inductive Info where
  | Tiny : Nat → Info
  | U8 | U16 | U32 | U64
  | Reserved28 | Reserved29 | Reserved30
  | Indefinite
deriving DecidableEq

/-- Modelled from the spec: the simple/float enumeration of the missing `cbor`
module (booleans, null, undefined, a small unsigned simple code, and the three
floating-point widths).  Float payloads are carried as their raw big-endian
bit patterns, since the wire format copies the bits verbatim. -/
inductive SimpleValue where
  | False | True | Null | Undefined
  | Simple : Nat → SimpleValue
  | F16 : Nat → SimpleValue
  | F32 : Nat → SimpleValue
  | F64 : Nat → SimpleValue
deriving DecidableEq

/-- Modelled from the spec: the restriction of the value model to the subset
legal as a map key — integers of either sign, byte/text strings, booleans and
simple codes (containers and floats excluded).  Text is carried as its byte
sequence.  A negative integer stores the non-negative magnitude `n` denoting
the value `-1-n`. -/
inductive Key where
  | U64 : Nat → Key
  | N64 : Nat → Key
  | Bytes : List Nat → Key
  | Text : List Nat → Key
  | Bool : Bool → Key
  | Simple : Nat → Key
deriving DecidableEq

/-- Modelled from the spec: the tagged-union value model of the missing `cbor`
module, one variant per major type.  Each variant carries its additional-info
selector together with its payload; `Major6` carries the numeric tag and one
owned nested value; the indefinite-length forms are outside the scope of this
model. -/
inductive Cbor where
  | Major0 : Info → Nat → Cbor
  | Major1 : Info → Nat → Cbor
  | Major2 : Info → List Nat → Cbor
  | Major3 : Info → List Nat → Cbor
  | Major4 : Info → List Cbor → Cbor
  | Major5 : Info → List (Key × Cbor) → Cbor
  | Major6 : Info → Nat → Cbor → Cbor
  | Major7 : Info → SimpleValue → Cbor

/-- Comparison of two natural numbers as an `Ordering`. -/
def ncmp (a b : Nat) : Ordering :=
  if a < b then .lt else if b < a then .gt else .eq

/-- Comparison of two booleans: `false` sorts before `true`. -/
def bcmp : Bool → Bool → Ordering
  | false, false => .eq
  | false, true => .lt
  | true, false => .gt
  | true, true => .eq

/-- Elementwise lexicographic comparison of byte sequences. -/
def lexcmp : List Nat → List Nat → Ordering
  | [], [] => .eq
  | [], _ :: _ => .lt
  | _ :: _, [] => .gt
  | x :: xs, y :: ys =>
    match ncmp x y with
    | .eq => lexcmp xs ys
    | o => o

/-- Modelled from the spec: byte/text strings order first by length (shorter
sorts earlier), then lexicographically. -/
def lcmp (xs ys : List Nat) : Ordering :=
  match ncmp xs.length ys.length with
  | .eq => lexcmp xs ys
  | o => o

/-- The canonical rank of a map key, following the major-type order. -/
def Key.rank : Key → Nat
  | .U64 _ => 0
  | .N64 _ => 1
  | .Bytes _ => 2
  | .Text _ => 3
  | .Bool _ => 4
  | .Simple _ => 5

/-- Modelled from the spec: the Key Ordering — first by the major type's
canonical rank, then by the decoded value within that type (smaller integers
earlier, hence for negative integers the larger magnitude earlier; strings by
length then lexicographically). -/
def Key.compare : Key → Key → Ordering
  | .U64 x, .U64 y => ncmp x y
  | .N64 x, .N64 y => ncmp y x
  | .Bytes x, .Bytes y => lcmp x y
  | .Text x, .Text y => lcmp x y
  | .Bool x, .Bool y => bcmp x y
  | .Simple x, .Simple y => ncmp x y
  | a, b => ncmp a.rank b.rank

/-- Modelled from the spec: the canonical (narrowest) additional-info selector
for a numeric header value — 0–23 inline, else the smallest of 1/2/4/8 bytes. -/
def infoOf (n : Nat) : Info :=
  if n < 24 then .Tiny n
  else if n < 256 then .U8
  else if n < 65536 then .U16
  else if n < 4294967296 then .U32
  else .U64

/-- The `w`-byte big-endian representation of `n`. -/
def beBytes : Nat → Nat → List Nat
  | 0, _ => []
  | w + 1, n => n / 256 ^ w % 256 :: beBytes w n

/-- Modelled from the spec: `write_header` of the Header Codec — the initial
byte is `(major_type << 5) | additional_info`, and for codes 24/25/26/27 the
big-endian 1/2/4/8-byte value follows; the narrowest width is always chosen. -/
def hdr (major n : Nat) : List Nat :=
  if n < 24 then [major * 32 + n]
  else if n < 256 then (major * 32 + 24) :: beBytes 1 n
  else if n < 65536 then (major * 32 + 25) :: beBytes 2 n
  else if n < 4294967296 then (major * 32 + 26) :: beBytes 4 n
  else (major * 32 + 27) :: beBytes 8 n

/-- Modelled from the spec: the encoding of a simple/float value under major
type 7 — false/true/null/undefined are codes 20–23, a simple code is inline
when below 24 and otherwise a one-byte extension, and floats use the
2/4/8-byte extension widths. -/
def encodeSimple : SimpleValue → List Nat
  | .False => [244]
  | .True => [245]
  | .Null => [246]
  | .Undefined => [247]
  | .Simple n => if n < 24 then [224 + n] else [248, n]
  | .F16 b => 249 :: beBytes 2 b
  | .F32 b => 250 :: beBytes 4 b
  | .F64 b => 251 :: beBytes 8 b

/-- The canonical additional-info selector stored with a decoded simple/float
value. -/
def simpleInfo : SimpleValue → Info
  | .False => .Tiny 20
  | .True => .Tiny 21
  | .Null => .Tiny 22
  | .Undefined => .Tiny 23
  | .Simple n => if n < 24 then .Tiny n else .U8
  | .F16 _ => .U16
  | .F32 _ => .U32
  | .F64 _ => .U64

/-- Modelled from the spec: the byte encoding of a map key on the wire. -/
def encodeKey : Key → List Nat
  | .U64 n => hdr 0 n
  | .N64 n => hdr 1 n
  | .Bytes bs => hdr 2 bs.length ++ bs
  | .Text bs => hdr 3 bs.length ++ bs
  | .Bool false => [244]
  | .Bool true => [245]
  | .Simple n => if n < 24 then [224 + n] else [248, n]

/-- The value-model form of a map key. -/
def Key.toCbor : Key → Cbor
  | .U64 n => .Major0 (infoOf n) n
  | .N64 n => .Major1 (infoOf n) n
  | .Bytes bs => .Major2 (infoOf bs.length) bs
  | .Text bs => .Major3 (infoOf bs.length) bs
  | .Bool false => .Major7 (.Tiny 20) .False
  | .Bool true => .Major7 (.Tiny 21) .True
  | .Simple n => .Major7 (if n < 24 then .Tiny n else .U8) (.Simple n)

/-- Modelled from the spec: conversion of a decoded value into a map key;
container and float values are not representable as keys and fail. -/
def Cbor.toKey : Cbor → Except Error Key
  | .Major0 _ n => .ok (.U64 n)
  | .Major1 _ n => .ok (.N64 n)
  | .Major2 _ bs => .ok (.Bytes bs)
  | .Major3 _ bs => .ok (.Text bs)
  | .Major7 _ .False => .ok (.Bool false)
  | .Major7 _ .True => .ok (.Bool true)
  | .Major7 _ (.Simple n) => .ok (.Simple n)
  | _ => .error (.FailCbor "cbor" "invalid map key")

/-- Keys in range for the model: integer magnitudes and lengths below `2^64`,
payload bytes below 256, and simple codes outside the range 20–31 reserved for
the named simple values and the extension form. -/
def validKey : Key → Bool
  | .U64 n => decide (n < 18446744073709551616)
  | .N64 n => decide (n < 18446744073709551616)
  | .Bytes bs => decide (bs.length < 18446744073709551616) && bs.all (fun b => decide (b < 256))
  | .Text bs => decide (bs.length < 18446744073709551616) && bs.all (fun b => decide (b < 256))
  | .Bool _ => true
  | .Simple n => decide (n < 20) || (decide (32 ≤ n) && decide (n < 256))

/-- Simple/float payloads in range for their width. -/
def validSimple : SimpleValue → Bool
  | .False => true
  | .True => true
  | .Null => true
  | .Undefined => true
  | .Simple n => decide (n < 20) || (decide (32 ≤ n) && decide (n < 256))
  | .F16 b => decide (b < 65536)
  | .F32 b => decide (b < 4294967296)
  | .F64 b => decide (b < 18446744073709551616)

/-- The order in which encode emits map entries, applied to entries whose
payloads have already been serialized: by the Key Ordering on the key. -/
def kvLe (a b : Key × List Nat) : Prop :=
  Key.compare a.1 b.1 ≠ Ordering.gt

instance : DecidableRel kvLe :=
  fun _ _ => instDecidableNot

/-- Sort serialized map entries into the Key Ordering (canonicalization). -/
def sortPairs (l : List (Key × List Nat)) : List (Key × List Nat) :=
  List.insertionSort kvLe l

/-- Concatenate the serialized payloads of a list of map entries. -/
def joinSnd (l : List (Key × List Nat)) : List Nat :=
  (l.map Prod.snd).flatten

mutual

/-- Modelled from the spec: the Encode Engine — a total recursive serializer
from a value to bytes.  Integers and lengths always use the narrowest header
width; map entries are emitted in the Key Ordering's sort order regardless of
the order supplied. -/
def encodeCbor : Cbor → List Nat
  | .Major0 _ n => hdr 0 n
  | .Major1 _ n => hdr 1 n
  | .Major2 _ bs => hdr 2 bs.length ++ bs
  | .Major3 _ bs => hdr 3 bs.length ++ bs
  | .Major4 _ items => hdr 4 items.length ++ encodeListC items
  | .Major5 _ entries => hdr 5 entries.length ++ joinSnd (sortPairs (encodeEntriesC entries))
  | .Major6 _ t child => hdr 6 t ++ encodeCbor child
  | .Major7 _ sv => encodeSimple sv

/-- Serialize the elements of an array in order. -/
def encodeListC : List Cbor → List Nat
  | [] => []
  | v :: vs => encodeCbor v ++ encodeListC vs

/-- Serialize each map entry (key bytes followed by value bytes), keeping the
key alongside so the entries can then be sorted. -/
def encodeEntriesC : List (Key × Cbor) → List (Key × List Nat)
  | [] => []
  | e :: rest => (e.1, encodeKey e.1 ++ encodeCbor e.2) :: encodeEntriesC rest

end

/-- Modelled from the spec: the fixed process-wide recursion-depth limit
enforced by the Decode Engine. -/
def RECURSION_LIMIT : Nat := 1000

/-- Read a `w`-byte big-endian value, failing when fewer bytes remain than the
advertised width requires. -/
def takeBE : Nat → List Nat → Except Error (Nat × List Nat)
  | 0, bs => .ok (0, bs)
  | _ + 1, [] => .error (.FailCbor "cbor" "insufficient bytes for advertised width")
  | w + 1, b :: bs =>
    match takeBE w bs with
    | .ok (n, rest) => .ok (b * 256 ^ w + n, rest)
    | .error e => .error e

/-- Take exactly `n` payload bytes, failing when the input is shorter. -/
def takeN : Nat → List Nat → Except Error (List Nat × List Nat)
  | 0, bs => .ok ([], bs)
  | _ + 1, [] => .error (.FailCbor "cbor" "insufficient payload bytes")
  | n + 1, b :: bs =>
    match takeN n bs with
    | .ok (payload, rest) => .ok (b :: payload, rest)
    | .error e => .error e

/-- Modelled from the spec: `read_header` of the Header Codec — splits the
initial byte into major type and additional info, reads the optional
1/2/4/8-byte big-endian extension, and fails on the reserved codes 28–30 or on
truncated input.  The indefinite-length marker is outside this model's scope
and also fails. -/
def readHeader : List Nat → Except Error (Nat × Info × Nat × List Nat)
  | [] => .error (.FailCbor "cbor" "unexpected end of input")
  | b :: bs =>
    let major := b / 32
    let ai := b % 32
    if ai < 24 then .ok (major, .Tiny ai, ai, bs)
    else if ai = 24 then
      match takeBE 1 bs with
      | .ok (n, rest) => .ok (major, .U8, n, rest)
      | .error e => .error e
    else if ai = 25 then
      match takeBE 2 bs with
      | .ok (n, rest) => .ok (major, .U16, n, rest)
      | .error e => .error e
    else if ai = 26 then
      match takeBE 4 bs with
      | .ok (n, rest) => .ok (major, .U32, n, rest)
      | .error e => .error e
    else if ai = 27 then
      match takeBE 8 bs with
      | .ok (n, rest) => .ok (major, .U64, n, rest)
      | .error e => .error e
    else if ai = 31 then .error (.FailCbor "cbor" "indefinite length outside model scope")
    else .error (.FailCbor "cbor" "reserved additional-info code")

/-- Interpret a major-type-7 header as a simple/float value.  Only the
selectors `readHeader` can produce reach the final catch-all. -/
def decodeSimpleItem (info : Info) (n : Nat) : SimpleValue :=
  match info with
  | .Tiny i =>
    if i = 20 then .False
    else if i = 21 then .True
    else if i = 22 then .Null
    else if i = 23 then .Undefined
    else .Simple i
  | .U8 => .Simple n
  | .U16 => .F16 n
  | .U32 => .F32 n
  | .U64 => .F64 n
  | _ => .Simple n

/-- Decode-side duplicate-key detection: no two entries whose keys compare
equal under the Key Ordering. -/
def distinctKeys : List (Key × Cbor) → Bool
  | [] => true
  | e :: rest => rest.all (fun f => Key.compare e.1 f.1 != Ordering.eq) && distinctKeys rest

/-- Decode a definite number of consecutive child values with the given child
decoder, threading the cursor. -/
def decodeSeq (child : List Nat → Except Error (Cbor × List Nat)) :
    Nat → List Nat → Except Error (List Cbor × List Nat)
  | 0, bs => .ok ([], bs)
  | c + 1, bs =>
    match child bs with
    | .ok (v, r) =>
      match decodeSeq child c r with
      | .ok (vs, r2) => .ok (v :: vs, r2)
      | .error e => .error e
    | .error e => .error e

/-- Decode a definite number of consecutive key-value pairs, converting each
key item into a map key. -/
def decodeEntrySeq (child : List Nat → Except Error (Cbor × List Nat)) :
    Nat → List Nat → Except Error (List (Key × Cbor) × List Nat)
  | 0, bs => .ok ([], bs)
  | c + 1, bs =>
    match child bs with
    | .ok (kv, r) =>
      match kv.toKey with
      | .ok k =>
        match child r with
        | .ok (v, r2) =>
          match decodeEntrySeq child c r2 with
          | .ok (rest, r3) => .ok ((k, v) :: rest, r3)
          | .error e => .error e
        | .error e => .error e
      | .error e => .error e
    | .error e => .error e

/-- Modelled from the spec: the Decode Engine — a recursive-descent parser
from bytes to one value plus the unconsumed remainder.  The fuel argument is
the remaining recursion-depth budget: it is spent on every Array/Map/Tag
descent and its exhaustion fails the decode unconditionally, regardless of
remaining input. -/
def decodeItem : Nat → List Nat → Except Error (Cbor × List Nat)
  | 0, _ => .error (.FailCbor "cbor" "recursion limit exceeded")
  | fuel + 1, bytes =>
    match readHeader bytes with
    | .error e => .error e
    | .ok (major, info, n, rest) =>
      if major = 0 then .ok (.Major0 info n, rest)
      else if major = 1 then .ok (.Major1 info n, rest)
      else if major = 2 then
        match takeN n rest with
        | .ok (payload, rest2) => .ok (.Major2 info payload, rest2)
        | .error e => .error e
      else if major = 3 then
        match takeN n rest with
        | .ok (payload, rest2) => .ok (.Major3 info payload, rest2)
        | .error e => .error e
      else if major = 4 then
        match decodeSeq (decodeItem fuel) n rest with
        | .ok (items, rest2) => .ok (.Major4 info items, rest2)
        | .error e => .error e
      else if major = 5 then
        match decodeEntrySeq (decodeItem fuel) n rest with
        | .ok (entries, rest2) =>
          if distinctKeys entries then .ok (.Major5 info entries, rest2)
          else .error (.FailCbor "cbor" "duplicate map key")
        | .error e => .error e
      else if major = 6 then
        match decodeItem fuel rest with
        | .ok (child, rest2) => .ok (.Major6 info n child, rest2)
        | .error e => .error e
      else .ok (.Major7 info (decodeSimpleItem info n), rest)

/-- Top-level decode: one value from the front of the byte sequence, starting
with the full recursion-depth budget. -/
def decodeCbor (bytes : List Nat) : Except Error (Cbor × List Nat) :=
  decodeItem (RECURSION_LIMIT + 1) bytes

/-- Map entries strictly ascending in the Key Ordering (each key below every
later key): the canonical, duplicate-free arrangement. -/
def sortedKeysB : List (Key × Cbor) → Bool
  | [] => true
  | e :: rest => rest.all (fun f => Key.compare e.1 f.1 == Ordering.lt) && sortedKeysB rest

mutual

/-- The canonical-validity predicate: exactly the values the Decode Engine can
produce — every stored additional-info selector is the canonical one for its
payload, numbers and lengths fit 64 bits, payload bytes are in range, map
entries are strictly sorted by the Key Ordering, and map keys are valid. -/
def validCbor : Cbor → Bool
  | .Major0 i n => decide (n < 18446744073709551616) && (i == infoOf n)
  | .Major1 i n => decide (n < 18446744073709551616) && (i == infoOf n)
  | .Major2 i bs =>
    decide (bs.length < 18446744073709551616) && (i == infoOf bs.length)
      && bs.all (fun b => decide (b < 256))
  | .Major3 i bs =>
    decide (bs.length < 18446744073709551616) && (i == infoOf bs.length)
      && bs.all (fun b => decide (b < 256))
  | .Major4 i items =>
    decide (items.length < 18446744073709551616) && (i == infoOf items.length)
      && validListC items
  | .Major5 i entries =>
    decide (entries.length < 18446744073709551616) && (i == infoOf entries.length)
      && sortedKeysB entries && validEntriesC entries
  | .Major6 i t child => decide (t < 18446744073709551616) && (i == infoOf t) && validCbor child
  | .Major7 i sv => (i == simpleInfo sv) && validSimple sv

/-- Validity of every element of an array. -/
def validListC : List Cbor → Bool
  | [] => true
  | v :: vs => validCbor v && validListC vs

/-- Validity of every key and value of a map. -/
def validEntriesC : List (Key × Cbor) → Bool
  | [] => true
  | e :: rest => validKey e.1 && validCbor e.2 && validEntriesC rest

end

mutual

/-- Container-nesting depth of a value: the number of Array/Map/Tag descents
needed to reach its deepest leaf. -/
def Cbor.depth : Cbor → Nat
  | .Major0 _ _ => 0
  | .Major1 _ _ => 0
  | .Major2 _ _ => 0
  | .Major3 _ _ => 0
  | .Major4 _ items => depthListC items + 1
  | .Major5 _ entries => depthEntriesC entries + 1
  | .Major6 _ _ child => Cbor.depth child + 1
  | .Major7 _ _ => 0

/-- Greatest depth among the elements of an array. -/
def depthListC : List Cbor → Nat
  | [] => 0
  | v :: vs => max (Cbor.depth v) (depthListC vs)

/-- Greatest depth among the values of a map. -/
def depthEntriesC : List (Key × Cbor) → Nat
  | [] => 0
  | e :: rest => max (Cbor.depth e.2) (depthEntriesC rest)

end

/-- A fresh copy of a byte sequence (`Vec<u8>::clone`). -/
def cloneBytes : List Nat → List Nat
  | [] => []
  | b :: bs => b :: cloneBytes bs

/-- A fresh copy of a map key (`Key::clone`). -/
def Key.clone : Key → Key
  | .U64 n => .U64 n
  | .N64 n => .N64 n
  | .Bytes bs => .Bytes (cloneBytes bs)
  | .Text bs => .Text (cloneBytes bs)
  | .Bool b => .Bool b
  | .Simple n => .Simple n

mutual

/-- A fresh deep copy of a value (`Cbor::clone`), rebuilding every node. -/
def Cbor.clone : Cbor → Cbor
  | .Major0 i n => .Major0 i n
  | .Major1 i n => .Major1 i n
  | .Major2 i bs => .Major2 i (cloneBytes bs)
  | .Major3 i bs => .Major3 i (cloneBytes bs)
  | .Major4 i items => .Major4 i (cloneListC items)
  | .Major5 i entries => .Major5 i (cloneEntriesC entries)
  | .Major6 i t child => .Major6 i t (Cbor.clone child)
  | .Major7 i sv => .Major7 i sv

/-- A fresh copy of an element list. -/
def cloneListC : List Cbor → List Cbor
  | [] => []
  | v :: vs => Cbor.clone v :: cloneListC vs

/-- A fresh copy of an entry list. -/
def cloneEntriesC : List (Key × Cbor) → List (Key × Cbor)
  | [] => []
  | e :: rest => (Key.clone e.1, Cbor.clone e.2) :: cloneEntriesC rest

end

/-- Shallow embedding of `get_cborize_id` from `src/lib.rs`: on a
major-type-4 value it returns a clone of the first array element
(`items.first().cloned()`), on anything else `None`. -/
def get_cborize_id (val : Cbor) : Option Cbor :=
  match val with
  | .Major4 _ items => Option.map Cbor.clone items.head?
  | _ => none

/-- The by-shared-reference call `get_cborize_id(&val)`: the result paired
with the state of the referenced value after the call (the function only
reads, so the referent is returned as is). -/
def get_cborize_id_ref (val : Cbor) : Option Cbor × Cbor :=
  (get_cborize_id val, val)

/-- The value nested under `n` one-element arrays with a zero at the core. -/
def nestVal : Nat → Cbor
  | 0 => .Major0 (.Tiny 0) 0
  | n + 1 => .Major4 (.Tiny 1) [nestVal n]

/-- The byte sequence of `n` one-element array headers followed by a zero. -/
def nestBytes (n : Nat) : List Nat :=
  List.replicate n 129 ++ [0]

/-- Whether a decode result is a malformed-encoding (`FailCbor`) error. -/
def isFailCbor : Except Error (Cbor × List Nat) → Bool
  | .error (.FailCbor _ _) => true
  | _ => false

/-- Exact representability of a header value at a given extension width:
width 0 means the inline 0–23 range, width `w` means `w` big-endian bytes. -/
def fitsWidth (w n : Nat) : Prop :=
  if w = 0 then n < 24 else n < 256 ^ w

/-- The number of extension bytes the canonical header of `n` uses. -/
def widthOf (n : Nat) : Nat :=
  if n < 24 then 0
  else if n < 256 then 1
  else if n < 65536 then 2
  else if n < 4294967296 then 4
  else 8

theorem ncmp_eq_iff {a b : Nat} : ncmp a b = .eq ↔ a = b := by
  unfold ncmp; split_ifs <;> simp <;> omega

theorem ncmp_lt_iff {a b : Nat} : ncmp a b = .lt ↔ a < b := by
  unfold ncmp; split_ifs <;> simp <;> omega

theorem ncmp_gt_iff {a b : Nat} : ncmp a b = .gt ↔ b < a := by
  unfold ncmp; split_ifs <;> simp <;> omega

theorem bcmp_eq_iff {a b : Bool} : bcmp a b = .eq ↔ a = b := by
  cases a <;> cases b <;> simp [bcmp]

theorem bcmp_gt_iff {a b : Bool} : bcmp a b = .gt ↔ bcmp b a = .lt := by
  cases a <;> cases b <;> simp [bcmp]

theorem bcmp_lt_trans {a b c : Bool} (h1 : bcmp a b = .lt) (h2 : bcmp b c = .lt) :
    bcmp a c = .lt := by
  cases a <;> cases b <;> cases c <;> simp_all [bcmp]

theorem lexcmp_eq_iff : ∀ {xs ys : List Nat}, lexcmp xs ys = .eq ↔ xs = ys
  | [], [] => by simp [lexcmp]
  | [], _ :: _ => by simp [lexcmp]
  | _ :: _, [] => by simp [lexcmp]
  | x :: xs, y :: ys => by
    rw [lexcmp]
    rcases h : ncmp x y with h1 | h1 | h1 <;>
      simp_all [@lexcmp_eq_iff xs ys, ncmp_eq_iff, ncmp_lt_iff, ncmp_gt_iff] <;>
      omega

theorem lexcmp_gt_iff : ∀ {xs ys : List Nat}, lexcmp xs ys = .gt ↔ lexcmp ys xs = .lt
  | [], [] => by simp [lexcmp]
  | [], _ :: _ => by simp [lexcmp]
  | _ :: _, [] => by simp [lexcmp]
  | x :: xs, y :: ys => by
    rw [lexcmp, lexcmp]
    rcases h : ncmp x y with h1 | h1 | h1 <;>
      rcases h2 : ncmp y x with h3 | h3 | h3 <;>
      simp_all [@lexcmp_gt_iff xs ys, ncmp_eq_iff, ncmp_lt_iff, ncmp_gt_iff] <;>
      omega

theorem lexcmp_cons_lt {x y : Nat} {xs ys : List Nat} :
    lexcmp (x :: xs) (y :: ys) = .lt ↔ x < y ∨ (x = y ∧ lexcmp xs ys = .lt) := by
  rcases h : ncmp x y with _ | _ | _
  · have hx := ncmp_lt_iff.mp h
    simp [lexcmp, h, hx]
  · have hx := ncmp_eq_iff.mp h
    subst hx
    simp [lexcmp, h]
  · have hx := ncmp_gt_iff.mp h
    have h1 : ¬ x < y := by omega
    have h2 : x ≠ y := by omega
    simp [lexcmp, h, h1, h2]

theorem lexcmp_lt_trans : ∀ {xs ys zs : List Nat},
    lexcmp xs ys = .lt → lexcmp ys zs = .lt → lexcmp xs zs = .lt
  | [], [], _, h1, _ => by simp [lexcmp] at h1
  | [], _ :: _, [], _, h2 => by simp [lexcmp] at h2
  | [], _ :: _, _ :: _, _, _ => by simp [lexcmp]
  | _ :: _, [], _, h1, _ => by simp [lexcmp] at h1
  | _ :: _, _ :: _, [], _, h2 => by simp [lexcmp] at h2
  | x :: xs, y :: ys, z :: zs, h1, h2 => by
    rw [lexcmp_cons_lt] at h1 h2 ⊢
    rcases h1 with h1 | ⟨h1, h1b⟩ <;> rcases h2 with h2 | ⟨h2, h2b⟩
    · exact Or.inl (by omega)
    · exact Or.inl (by omega)
    · exact Or.inl (by omega)
    · exact Or.inr ⟨by omega, lexcmp_lt_trans h1b h2b⟩

theorem lcmp_eq_iff {xs ys : List Nat} : lcmp xs ys = .eq ↔ xs = ys := by
  constructor
  · intro hc
    unfold lcmp at hc
    rcases h : ncmp xs.length ys.length with _ | _ | _ <;> rw [h] at hc
    · exact absurd hc (by simp)
    · exact lexcmp_eq_iff.mp hc
    · exact absurd hc (by simp)
  · intro he
    subst he
    unfold lcmp
    rw [ncmp_eq_iff.mpr rfl]
    exact lexcmp_eq_iff.mpr rfl

theorem lcmp_gt_iff {xs ys : List Nat} : lcmp xs ys = .gt ↔ lcmp ys xs = .lt := by
  unfold lcmp
  rcases h : ncmp xs.length ys.length with _ | _ | _
  · rw [ncmp_gt_iff.mpr (ncmp_lt_iff.mp h)]
    simp
  · rw [ncmp_eq_iff.mpr (ncmp_eq_iff.mp h).symm]
    exact lexcmp_gt_iff
  · rw [ncmp_lt_iff.mpr (ncmp_gt_iff.mp h)]
    simp

theorem lcmp_lt_trans {xs ys zs : List Nat}
    (h1 : lcmp xs ys = .lt) (h2 : lcmp ys zs = .lt) : lcmp xs zs = .lt := by
  unfold lcmp at h1 h2 ⊢
  rcases ha : ncmp xs.length ys.length with _ | _ | _ <;> rw [ha] at h1
  · rcases hb : ncmp ys.length zs.length with _ | _ | _ <;> rw [hb] at h2
    · rw [ncmp_lt_iff.mpr (by have := ncmp_lt_iff.mp ha; have := ncmp_lt_iff.mp hb; omega)]
    · rw [ncmp_lt_iff.mpr (by have := ncmp_lt_iff.mp ha; have := ncmp_eq_iff.mp hb; omega)]
    · exact absurd h2 (by simp)
  · rcases hb : ncmp ys.length zs.length with _ | _ | _ <;> rw [hb] at h2
    · rw [ncmp_lt_iff.mpr (by have := ncmp_eq_iff.mp ha; have := ncmp_lt_iff.mp hb; omega)]
    · rw [ncmp_eq_iff.mpr (by have := ncmp_eq_iff.mp ha; have := ncmp_eq_iff.mp hb; omega)]
      exact lexcmp_lt_trans h1 h2
    · exact absurd h2 (by simp)
  · exact absurd h1 (by simp)

theorem kc_eq_iff {a b : Key} : Key.compare a b = .eq ↔ a = b := by
  cases a <;> cases b <;>
    simp [Key.compare, Key.rank, ncmp_eq_iff, bcmp_eq_iff, lcmp_eq_iff] <;>
    omega

theorem kc_gt_iff {a b : Key} : Key.compare a b = .gt ↔ Key.compare b a = .lt := by
  cases a <;> cases b <;>
    simp [Key.compare, Key.rank, ncmp_gt_iff, ncmp_lt_iff, bcmp_gt_iff, lcmp_gt_iff]

theorem kc_lt_trans {a b c : Key}
    (h1 : Key.compare a b = .lt) (h2 : Key.compare b c = .lt) : Key.compare a c = .lt := by
  cases a <;> cases b <;> cases c <;>
    simp_all [Key.compare, Key.rank, ncmp_lt_iff, ncmp_gt_iff, ncmp_eq_iff] <;>
    first
      | omega
      | exact lcmp_lt_trans h1 h2
      | exact bcmp_lt_trans h1 h2

theorem takeBE_beBytes : ∀ (w n : Nat) (rest : List Nat),
    takeBE w (beBytes w n ++ rest) = .ok (n % 256 ^ w, rest)
  | 0, n, rest => by simp [takeBE, beBytes, Nat.mod_one]
  | w + 1, n, rest => by
    have ih := takeBE_beBytes w n rest
    simp [beBytes, takeBE, ih]
    rw [Nat.pow_succ, Nat.mod_mul]
    ring

theorem takeBE_beBytes_of_lt {w n : Nat} (h : n < 256 ^ w) (rest : List Nat) :
    takeBE w (beBytes w n ++ rest) = .ok (n, rest) := by
  rw [takeBE_beBytes, Nat.mod_eq_of_lt h]

theorem takeN_append : ∀ (bs rest : List Nat), takeN bs.length (bs ++ rest) = .ok (bs, rest)
  | [], rest => by simp [takeN]
  | b :: bs, rest => by simp [takeN, takeN_append bs rest]

theorem takeBE_short : ∀ (w : Nat) (bs : List Nat), bs.length < w →
    takeBE w bs = .error (.FailCbor "cbor" "insufficient bytes for advertised width")
  | 0, _, h => absurd h (Nat.not_lt_zero _)
  | _ + 1, [], _ => by simp [takeBE]
  | w + 1, b :: bs, h => by
    simp [takeBE, takeBE_short w bs (by simpa using h)]

theorem readHeader_hdr (major n : Nat) (rest : List Nat) (hm : major < 8)
    (hn : n < 18446744073709551616) :
    readHeader (hdr major n ++ rest) = .ok (major, infoOf n, n, rest) := by
  unfold hdr infoOf
  split_ifs with h1 h2 h3 h4
  · have e1 : (major * 32 + n) / 32 = major := by omega
    have e2 : (major * 32 + n) % 32 = n := by omega
    simp [readHeader, e1, e2, h1]
  · have e1 : (major * 32 + 24) / 32 = major := by omega
    have e2 : (major * 32 + 24) % 32 = 24 := by omega
    simp [readHeader, e1, e2, takeBE_beBytes_of_lt (show n < 256 ^ 1 by simpa using h2) rest]
  · have e1 : (major * 32 + 25) / 32 = major := by omega
    have e2 : (major * 32 + 25) % 32 = 25 := by omega
    simp [readHeader, e1, e2, takeBE_beBytes_of_lt (show n < 256 ^ 2 by norm_num; omega) rest]
  · have e1 : (major * 32 + 26) / 32 = major := by omega
    have e2 : (major * 32 + 26) % 32 = 26 := by omega
    simp [readHeader, e1, e2, takeBE_beBytes_of_lt (show n < 256 ^ 4 by norm_num; omega) rest]
  · have e1 : (major * 32 + 27) / 32 = major := by omega
    have e2 : (major * 32 + 27) % 32 = 27 := by omega
    simp [readHeader, e1, e2, takeBE_beBytes_of_lt (show n < 256 ^ 8 by norm_num; omega) rest]

theorem joinSnd_cons (e : Key × List Nat) (l : List (Key × List Nat)) :
    joinSnd (e :: l) = e.2 ++ joinSnd l := by
  simp [joinSnd]

theorem validListC_mem : ∀ {l : List Cbor} {x : Cbor},
    validListC l = true → x ∈ l → validCbor x = true
  | v :: vs, x, hv, hm => by
    simp [validListC] at hv
    rcases List.mem_cons.mp hm with h | h
    · subst h; exact hv.1
    · exact validListC_mem hv.2 h

theorem validEntriesC_mem : ∀ {l : List (Key × Cbor)} {e : Key × Cbor},
    validEntriesC l = true → e ∈ l → validKey e.1 = true ∧ validCbor e.2 = true
  | f :: fs, e, hv, hm => by
    simp [validEntriesC] at hv
    rcases List.mem_cons.mp hm with h | h
    · subst h; exact ⟨hv.1.1, hv.1.2⟩
    · exact validEntriesC_mem hv.2 h

theorem depthListC_mem : ∀ {l : List Cbor} {x : Cbor}, x ∈ l → Cbor.depth x ≤ depthListC l
  | v :: vs, x, hm => by
    rw [depthListC]
    rcases List.mem_cons.mp hm with h | h
    · subst h; exact Nat.le_max_left _ _
    · exact le_trans (depthListC_mem h) (Nat.le_max_right _ _)

theorem depthEntriesC_mem : ∀ {l : List (Key × Cbor)} {e : Key × Cbor},
    e ∈ l → Cbor.depth e.2 ≤ depthEntriesC l
  | f :: fs, e, hm => by
    rw [depthEntriesC]
    rcases List.mem_cons.mp hm with h | h
    · subst h; exact Nat.le_max_left _ _
    · exact le_trans (depthEntriesC_mem h) (Nat.le_max_right _ _)

theorem ord_beq_iff {o p : Ordering} : (o == p) = true ↔ o = p := by
  cases o <;> cases p <;> decide

theorem ord_bne_iff {o p : Ordering} : (o != p) = true ↔ o ≠ p := by
  cases o <;> cases p <;> decide

theorem sortedKeysB_pairwise : ∀ {l : List (Key × Cbor)},
    sortedKeysB l = true ↔ List.Pairwise (fun a b => Key.compare a.1 b.1 = .lt) l
  | [] => by simp [sortedKeysB]
  | e :: rest => by
    simp only [sortedKeysB, Bool.and_eq_true, List.all_eq_true, List.pairwise_cons,
      sortedKeysB_pairwise (l := rest), ord_beq_iff]

theorem sortedKeysB_distinct : ∀ (l : List (Key × Cbor)),
    sortedKeysB l = true → distinctKeys l = true
  | [], _ => rfl
  | e :: rest, h => by
    simp only [sortedKeysB, Bool.and_eq_true, List.all_eq_true, ord_beq_iff] at h
    simp only [distinctKeys, Bool.and_eq_true, List.all_eq_true, ord_bne_iff]
    refine ⟨?_, sortedKeysB_distinct rest h.2⟩
    intro f hf
    simp [h.1 f hf]

theorem encodeEntriesC_map : ∀ (l : List (Key × Cbor)),
    encodeEntriesC l = l.map (fun e => (e.1, encodeKey e.1 ++ encodeCbor e.2))
  | [] => by simp [encodeEntriesC]
  | e :: rest => by simp [encodeEntriesC, encodeEntriesC_map rest]

theorem sortPairs_encodeEntries_id {l : List (Key × Cbor)}
    (h : List.Pairwise (fun a b => Key.compare a.1 b.1 = .lt) l) :
    sortPairs (encodeEntriesC l) = encodeEntriesC l := by
  apply List.Sorted.insertionSort_eq
  rw [encodeEntriesC_map]
  exact List.pairwise_map.mpr (h.imp (fun hab => by simp [kvLe, hab]))

theorem toKey_toCbor : ∀ (k : Key), Cbor.toKey (Key.toCbor k) = .ok k
  | .U64 _ => rfl
  | .N64 _ => rfl
  | .Bytes _ => rfl
  | .Text _ => rfl
  | .Bool false => rfl
  | .Bool true => rfl
  | .Simple _ => rfl

theorem decodeItem_encodeKey (fl : Nat) (hf : 0 < fl) (k : Key) (rest : List Nat)
    (hk : validKey k = true) :
    decodeItem fl (encodeKey k ++ rest) = .ok (Key.toCbor k, rest) := by
  obtain ⟨f, rfl⟩ : ∃ f, fl = f + 1 := ⟨fl - 1, by omega⟩
  cases k with
  | U64 n =>
    simp [validKey] at hk
    rw [encodeKey]
    simp [decodeItem, readHeader_hdr 0 n rest (by omega) hk, Key.toCbor]
  | N64 n =>
    simp [validKey] at hk
    rw [encodeKey]
    simp [decodeItem, readHeader_hdr 1 n rest (by omega) hk, Key.toCbor]
  | Bytes bs =>
    simp [validKey] at hk
    rw [encodeKey, List.append_assoc]
    simp [decodeItem, readHeader_hdr 2 bs.length (bs ++ rest) (by omega) hk.1,
      takeN_append, Key.toCbor]
  | Text bs =>
    simp [validKey] at hk
    rw [encodeKey, List.append_assoc]
    simp [decodeItem, readHeader_hdr 3 bs.length (bs ++ rest) (by omega) hk.1,
      takeN_append, Key.toCbor]
  | Bool b =>
    cases b <;> simp [encodeKey, decodeItem, readHeader, decodeSimpleItem, Key.toCbor]
  | Simple n =>
    simp [validKey] at hk
    rcases hk with h | ⟨h1, h2⟩
    · have e0 : n < 24 := by omega
      have e1 : (224 + n) / 32 = 7 := by omega
      have e2 : (224 + n) % 32 = n := by omega
      have d1 : n ≠ 20 := by omega
      have d2 : n ≠ 21 := by omega
      have d3 : n ≠ 22 := by omega
      have d4 : n ≠ 23 := by omega
      simp [encodeKey, e0, decodeItem, readHeader, e1, e2, decodeSimpleItem, d1, d2, d3, d4,
        Key.toCbor]
    · have e0 : ¬ n < 24 := by omega
      simp [encodeKey, e0, decodeItem, readHeader, takeBE, decodeSimpleItem, Key.toCbor]

theorem decodeSeq_encodeListC (f : Nat) : ∀ (l : List Cbor) (rest : List Nat),
    (∀ x ∈ l, ∀ r : List Nat, decodeItem f (encodeCbor x ++ r) = .ok (x, r)) →
    decodeSeq (decodeItem f) l.length (encodeListC l ++ rest) = .ok (l, rest)
  | [], rest, _ => by simp [decodeSeq, encodeListC]
  | v :: vs, rest, h => by
    rw [encodeListC, List.append_assoc]
    simp [decodeSeq, h v (by simp),
      decodeSeq_encodeListC f vs rest (fun x hx r => h x (by simp [hx]) r)]

theorem decodeEntrySeq_encode (f : Nat) (hf : 0 < f) :
    ∀ (l : List (Key × Cbor)) (rest : List Nat),
    (∀ e ∈ l, validKey e.1 = true) →
    (∀ e ∈ l, ∀ r : List Nat, decodeItem f (encodeCbor e.2 ++ r) = .ok (e.2, r)) →
    decodeEntrySeq (decodeItem f) l.length (joinSnd (encodeEntriesC l) ++ rest)
      = .ok (l, rest)
  | [], rest, _, _ => by simp [decodeEntrySeq, encodeEntriesC, joinSnd]
  | (k, v) :: es, rest, hk, hv => by
    rw [encodeEntriesC, joinSnd_cons, List.append_assoc, List.append_assoc]
    simp only [List.length_cons]
    simp [decodeEntrySeq,
      decodeItem_encodeKey f hf k _ (hk (k, v) (by simp)),
      toKey_toCbor,
      hv (k, v) (by simp) _,
      decodeEntrySeq_encode f hf es rest (fun e he => hk e (by simp [he]))
        (fun e he r => hv e (by simp [he]) r)]

theorem rt_aux : ∀ (fuel : Nat) (v : Cbor) (rest : List Nat),
    validCbor v = true → Cbor.depth v < fuel →
    decodeItem fuel (encodeCbor v ++ rest) = .ok (v, rest)
  | 0, _, _, _, hd => absurd hd (Nat.not_lt_zero _)
  | fuel + 1, v, rest, hv, hd => by
    cases v with
    | Major0 i n =>
      simp [validCbor] at hv
      obtain ⟨h1, h2⟩ := hv
      subst h2
      rw [encodeCbor]
      simp [decodeItem, readHeader_hdr 0 n rest (by omega) h1]
    | Major1 i n =>
      simp [validCbor] at hv
      obtain ⟨h1, h2⟩ := hv
      subst h2
      rw [encodeCbor]
      simp [decodeItem, readHeader_hdr 1 n rest (by omega) h1]
    | Major2 i bs =>
      simp [validCbor] at hv
      obtain ⟨⟨h1, h2⟩, h3⟩ := hv
      subst h2
      rw [encodeCbor, List.append_assoc]
      simp [decodeItem, readHeader_hdr 2 bs.length (bs ++ rest) (by omega) h1, takeN_append]
    | Major3 i bs =>
      simp [validCbor] at hv
      obtain ⟨⟨h1, h2⟩, h3⟩ := hv
      subst h2
      rw [encodeCbor, List.append_assoc]
      simp [decodeItem, readHeader_hdr 3 bs.length (bs ++ rest) (by omega) h1, takeN_append]
    | Major4 i items =>
      simp [validCbor] at hv
      obtain ⟨⟨h1, h2⟩, h3⟩ := hv
      subst h2
      rw [Cbor.depth] at hd
      rw [encodeCbor, List.append_assoc]
      have hchild : ∀ x ∈ items, ∀ r : List Nat,
          decodeItem fuel (encodeCbor x ++ r) = .ok (x, r) := by
        intro x hx r
        have hdx := depthListC_mem hx
        exact rt_aux fuel x r (validListC_mem h3 hx) (by omega)
      simp [decodeItem, readHeader_hdr 4 items.length _ (by omega) h1,
        decodeSeq_encodeListC fuel items rest hchild]
    | Major5 i entries =>
      simp [validCbor] at hv
      obtain ⟨⟨⟨h1, h2⟩, hsort⟩, hval⟩ := hv
      subst h2
      rw [Cbor.depth] at hd
      have hf : 0 < fuel := by omega
      rw [encodeCbor, sortPairs_encodeEntries_id (sortedKeysB_pairwise.mp hsort),
        List.append_assoc]
      have hks : ∀ e ∈ entries, validKey e.1 = true :=
        fun e he => (validEntriesC_mem hval he).1
      have hvs : ∀ e ∈ entries, ∀ r : List Nat,
          decodeItem fuel (encodeCbor e.2 ++ r) = .ok (e.2, r) := by
        intro e he r
        have hde := depthEntriesC_mem he
        exact rt_aux fuel e.2 r (validEntriesC_mem hval he).2 (by omega)
      simp [decodeItem, readHeader_hdr 5 entries.length _ (by omega) h1,
        decodeEntrySeq_encode fuel hf entries rest hks hvs,
        sortedKeysB_distinct entries hsort]
    | Major6 i t child =>
      simp [validCbor] at hv
      obtain ⟨⟨h1, h2⟩, h3⟩ := hv
      subst h2
      rw [Cbor.depth] at hd
      rw [encodeCbor, List.append_assoc]
      have hc : decodeItem fuel (encodeCbor child ++ rest) = .ok (child, rest) :=
        rt_aux fuel child rest h3 (by omega)
      simp [decodeItem, readHeader_hdr 6 t _ (by omega) h1, hc]
    | Major7 i sv =>
      simp [validCbor] at hv
      obtain ⟨h2, h3⟩ := hv
      subst h2
      rw [encodeCbor]
      cases sv with
      | False => simp [encodeSimple, simpleInfo, decodeItem, readHeader, decodeSimpleItem]
      | True => simp [encodeSimple, simpleInfo, decodeItem, readHeader, decodeSimpleItem]
      | Null => simp [encodeSimple, simpleInfo, decodeItem, readHeader, decodeSimpleItem]
      | Undefined => simp [encodeSimple, simpleInfo, decodeItem, readHeader, decodeSimpleItem]
      | Simple n =>
        simp [validSimple] at h3
        rcases h3 with h | ⟨ha, hb⟩
        · have e0 : n < 24 := by omega
          have e1 : (224 + n) / 32 = 7 := by omega
          have e2 : (224 + n) % 32 = n := by omega
          have d1 : n ≠ 20 := by omega
          have d2 : n ≠ 21 := by omega
          have d3 : n ≠ 22 := by omega
          have d4 : n ≠ 23 := by omega
          simp [encodeSimple, simpleInfo, e0, decodeItem, readHeader, e1, e2,
            decodeSimpleItem, d1, d2, d3, d4]
        · have e0 : ¬ n < 24 := by omega
          simp [encodeSimple, simpleInfo, e0, decodeItem, readHeader, takeBE, decodeSimpleItem]
      | F16 b =>
        simp [validSimple] at h3
        simp [encodeSimple, simpleInfo, decodeItem, readHeader,
          takeBE_beBytes_of_lt (show b < 256 ^ 2 by norm_num; omega) rest, decodeSimpleItem]
      | F32 b =>
        simp [validSimple] at h3
        simp [encodeSimple, simpleInfo, decodeItem, readHeader,
          takeBE_beBytes_of_lt (show b < 256 ^ 4 by norm_num; omega) rest, decodeSimpleItem]
      | F64 b =>
        simp [validSimple] at h3
        simp [encodeSimple, simpleInfo, decodeItem, readHeader,
          takeBE_beBytes_of_lt (show b < 256 ^ 8 by norm_num; omega) rest, decodeSimpleItem]

theorem cloneBytes_eq : ∀ (l : List Nat), cloneBytes l = l
  | [] => rfl
  | b :: bs => by rw [cloneBytes, cloneBytes_eq bs]

theorem cloneKey_eq (k : Key) : Key.clone k = k := by
  cases k <;> simp [Key.clone, cloneBytes_eq]

mutual

theorem cloneCbor_eq : ∀ (v : Cbor), Cbor.clone v = v
  | .Major0 _ _ => rfl
  | .Major1 _ _ => rfl
  | .Major2 _ bs => by rw [Cbor.clone, cloneBytes_eq]
  | .Major3 _ bs => by rw [Cbor.clone, cloneBytes_eq]
  | .Major4 _ items => by rw [Cbor.clone, cloneListC_eq]
  | .Major5 _ entries => by rw [Cbor.clone, cloneEntriesC_eq]
  | .Major6 _ _ c => by rw [Cbor.clone, cloneCbor_eq c]
  | .Major7 _ _ => rfl

theorem cloneListC_eq : ∀ (l : List Cbor), cloneListC l = l
  | [] => rfl
  | v :: vs => by rw [cloneListC, cloneCbor_eq v, cloneListC_eq vs]

theorem cloneEntriesC_eq : ∀ (l : List (Key × Cbor)), cloneEntriesC l = l
  | [] => rfl
  | (k, v) :: es => by rw [cloneEntriesC, cloneKey_eq k, cloneCbor_eq v, cloneEntriesC_eq es]

end

theorem decode_nest_ok : ∀ (n fuel : Nat) (rest : List Nat), n < fuel →
    decodeItem fuel (List.replicate n 129 ++ (0 :: rest)) = .ok (nestVal n, rest)
  | 0, fuel, rest, h => by
    obtain ⟨f, rfl⟩ : ∃ f, fuel = f + 1 := ⟨fuel - 1, by omega⟩
    simp [decodeItem, readHeader, nestVal]
  | n + 1, fuel, rest, h => by
    obtain ⟨f, rfl⟩ : ∃ f, fuel = f + 1 := ⟨fuel - 1, by omega⟩
    rw [List.replicate_succ]
    simp [decodeItem, readHeader, decodeSeq, decode_nest_ok n f rest (by omega), nestVal]

theorem decode_nest_err : ∀ (fuel n : Nat) (rest : List Nat), fuel ≤ n →
    decodeItem fuel (List.replicate n 129 ++ rest)
      = .error (.FailCbor "cbor" "recursion limit exceeded")
  | 0, n, rest, _ => by simp [decodeItem]
  | fuel + 1, n, rest, h => by
    obtain ⟨m, rfl⟩ : ∃ m, n = m + 1 := ⟨n - 1, by omega⟩
    rw [List.replicate_succ]
    simp [decodeItem, readHeader, decodeSeq, decode_nest_err fuel m rest (by omega)]

theorem readHeader_reserved {b : Nat} (rest : List Nat)
    (h : b % 32 = 28 ∨ b % 32 = 29 ∨ b % 32 = 30) :
    readHeader (b :: rest) = .error (.FailCbor "cbor" "reserved additional-info code") := by
  rcases h with h | h | h <;> simp [readHeader, h]

theorem readHeader_short {b : Nat} {rest : List Nat}
    (h24 : 24 ≤ b % 32) (h27 : b % 32 ≤ 27) (hlen : rest.length < 2 ^ (b % 32 - 24)) :
    readHeader (b :: rest)
      = .error (.FailCbor "cbor" "insufficient bytes for advertised width") := by
  have hc : b % 32 = 24 ∨ b % 32 = 25 ∨ b % 32 = 26 ∨ b % 32 = 27 := by omega
  rcases hc with h | h | h | h
  · have hl : rest.length < 1 := by rw [h] at hlen; simpa using hlen
    simp [readHeader, h, takeBE_short 1 rest hl]
  · have hl : rest.length < 2 := by rw [h] at hlen; simpa using hlen
    simp [readHeader, h, takeBE_short 2 rest hl]
  · have hl : rest.length < 4 := by rw [h] at hlen; simpa using hlen
    simp [readHeader, h, takeBE_short 4 rest hl]
  · have hl : rest.length < 8 := by rw [h] at hlen; simpa using hlen
    simp [readHeader, h, takeBE_short 8 rest hl]

theorem decodeItem_header_err {bytes : List Nat} {e : Error} (fuel : Nat)
    (h : readHeader bytes = .error e) : decodeItem (fuel + 1) bytes = .error e := by
  simp [decodeItem, h]

theorem beBytes_length : ∀ (w n : Nat), (beBytes w n).length = w
  | 0, _ => rfl
  | w + 1, n => by rw [beBytes]; simp [beBytes_length w n]

theorem hdr_length (major n : Nat) : (hdr major n).length = 1 + widthOf n := by
  unfold hdr widthOf
  split_ifs <;> simp [beBytes_length]

theorem kvLe_trans {a b c : Key × List Nat} (h1 : kvLe a b) (h2 : kvLe b c) : kvLe a c := by
  unfold kvLe at h1 h2 ⊢
  rcases ha : Key.compare a.1 b.1 with _ | _ | _
  · rcases hb : Key.compare b.1 c.1 with _ | _ | _
    · simp [kc_lt_trans ha hb]
    · have he : b.1 = c.1 := kc_eq_iff.mp hb
      rw [← he]
      simp [ha]
    · exact absurd hb h2
  · have he : a.1 = b.1 := kc_eq_iff.mp ha
    rw [he]
    exact h2
  · exact absurd ha h1

theorem kvLe_total (a b : Key × List Nat) : kvLe a b ∨ kvLe b a := by
  unfold kvLe
  rcases h : Key.compare a.1 b.1 with _ | _ | _
  · left; simp
  · left; simp
  · right; simp [kc_gt_iff.mp h]

theorem kvLe_ne_lt {a b : Key × List Nat} (h1 : kvLe a b)
    (h2 : Key.compare a.1 b.1 ≠ .eq) : Key.compare a.1 b.1 = .lt := by
  rcases h : Key.compare a.1 b.1 with _ | _ | _
  · rfl
  · exact absurd h h2
  · exact absurd h h1

theorem kne_symm {x y : Key × List Nat} (h : Key.compare x.1 y.1 ≠ .eq) :
    Key.compare y.1 x.1 ≠ .eq :=
  fun he => h (kc_eq_iff.mpr (kc_eq_iff.mp he).symm)

theorem sortPairs_sorted_lt {l : List (Key × List Nat)}
    (hd : List.Pairwise (fun a b => Key.compare a.1 b.1 ≠ .eq) l) :
    List.Pairwise (fun a b : Key × List Nat => Key.compare a.1 b.1 = .lt) (sortPairs l) := by
  haveI : IsTrans (Key × List Nat) kvLe := ⟨fun _ _ _ => kvLe_trans⟩
  haveI : IsTotal (Key × List Nat) kvLe := ⟨kvLe_total⟩
  have hs : List.Sorted kvLe (sortPairs l) := List.sorted_insertionSort kvLe l
  have hne : List.Pairwise (fun a b => Key.compare a.1 b.1 ≠ .eq) (sortPairs l) :=
    ((List.perm_insertionSort kvLe l).pairwise_iff (fun h => kne_symm h)).mpr hd
  exact (List.Pairwise.and hs hne).imp (fun hab => kvLe_ne_lt hab.1 hab.2)

theorem sortPairs_perm_eq {l1 l2 : List (Key × List Nat)}
    (hd : List.Pairwise (fun a b => Key.compare a.1 b.1 ≠ .eq) l1)
    (hp : l1.Perm l2) : sortPairs l1 = sortPairs l2 := by
  haveI : IsAntisymm (Key × List Nat) (fun a b => Key.compare a.1 b.1 = .lt) :=
    ⟨fun a b h1 h2 => absurd (kc_gt_iff.mpr h2) (by simp [h1])⟩
  apply List.eq_of_perm_of_sorted
    (r := fun a b : Key × List Nat => Key.compare a.1 b.1 = .lt)
  · exact (List.perm_insertionSort kvLe l1).trans
      (hp.trans (List.perm_insertionSort kvLe l2).symm)
  · exact sortPairs_sorted_lt hd
  · exact sortPairs_sorted_lt ((hp.pairwise_iff (fun h => kne_symm h)).mp hd)

theorem decodeCbor_encodeKey (k : Key) (hk : validKey k = true) :
    decodeCbor (encodeKey k) = .ok (Key.toCbor k, []) := by
  have h := decodeItem_encodeKey (RECURSION_LIMIT + 1) (by omega) k [] hk
  rw [List.append_nil] at h
  exact h

theorem toCbor_inj {a b : Key} (h : Key.toCbor a = Key.toCbor b) : a = b := by
  rcases a with n | n | bs | bs | x | n <;> (try cases x) <;>
    rcases b with m | m | cs | cs | y | m <;> (try cases y) <;>
    simp_all [Key.toCbor]

/-- C1: for any Array value the identifier-extraction helper returns its first
element itself (not a decoding of it) when one exists, and for any non-Array
value it returns nothing. -/
theorem C1_identifier_extraction :
    (∀ (i : Info) (x : Cbor) (xs : List Cbor),
      get_cborize_id (.Major4 i (x :: xs)) = some x) ∧
    (∀ v : Cbor, (∀ (i : Info) (items : List Cbor), v ≠ .Major4 i items) →
      get_cborize_id v = none) := by
  constructor
  · intro i x xs
    rw [get_cborize_id]
    simp [cloneCbor_eq]
  · intro v hv
    cases v with
    | Major4 i items => exact absurd rfl (hv i items)
    | Major0 i n => rfl
    | Major1 i n => rfl
    | Major2 i bs => rfl
    | Major3 i bs => rfl
    | Major5 i entries => rfl
    | Major6 i t c => rfl
    | Major7 i sv => rfl

/-- Witness for C1 at concrete inputs: a two-element array yields its first
element, and a non-Array value yields nothing. -/
theorem C1_witness :
    get_cborize_id (.Major4 (.Tiny 2) [.Major0 (.Tiny 7) 7, .Major0 (.Tiny 5) 5])
        = some (.Major0 (.Tiny 7) 7) ∧
    get_cborize_id (.Major0 (.Tiny 3) 3) = none :=
  ⟨C1_identifier_extraction.1 (.Tiny 2) (.Major0 (.Tiny 7) 7) [.Major0 (.Tiny 5) 5],
   C1_identifier_extraction.2 (.Major0 (.Tiny 3) 3) (fun _ _ h => Cbor.noConfusion h)⟩

/-- C9: on an Array with zero elements the helper returns `none`, and in
general it returns `some x` exactly when the input is an Array whose first
element is `x`. -/
theorem C9_empty_array_and_charact :
    (∀ i : Info, get_cborize_id (.Major4 i []) = none) ∧
    (∀ (v x : Cbor), get_cborize_id v = some x ↔
      ∃ (i : Info) (xs : List Cbor), v = .Major4 i (x :: xs)) := by
  constructor
  · intro i; rfl
  · intro v x
    constructor
    · intro h
      cases v with
      | Major4 i items =>
        cases items with
        | nil => exact absurd h (by simp [get_cborize_id])
        | cons y ys =>
          refine ⟨i, ys, ?_⟩
          rw [get_cborize_id] at h
          simp [cloneCbor_eq] at h
          rw [h]
      | Major0 i n => exact absurd h (by simp [get_cborize_id])
      | Major1 i n => exact absurd h (by simp [get_cborize_id])
      | Major2 i bs => exact absurd h (by simp [get_cborize_id])
      | Major3 i bs => exact absurd h (by simp [get_cborize_id])
      | Major5 i entries => exact absurd h (by simp [get_cborize_id])
      | Major6 i t c => exact absurd h (by simp [get_cborize_id])
      | Major7 i sv => exact absurd h (by simp [get_cborize_id])
    · rintro ⟨i, xs, rfl⟩
      rw [get_cborize_id]
      simp [cloneCbor_eq]

/-- C10: the by-shared-reference call leaves the referenced value structurally
unchanged, and when it returns an element that element is an independent clone
that is structurally equal to the array's first element. -/
theorem C10_no_mutation :
    ∀ v : Cbor,
      (get_cborize_id_ref v).2 = v ∧
      (∀ (i : Info) (x : Cbor) (xs : List Cbor), v = .Major4 i (x :: xs) →
        (get_cborize_id_ref v).1 = some (Cbor.clone x) ∧ Cbor.clone x = x) := by
  intro v
  refine ⟨rfl, ?_⟩
  rintro i x xs rfl
  exact ⟨rfl, cloneCbor_eq x⟩

/-- Witness for C10 at a concrete input: the referent is unchanged and the
returned clone equals the first element. -/
theorem C10_witness :
    (get_cborize_id_ref (.Major4 (.Tiny 1) [.Major0 (.Tiny 9) 9])).2
        = .Major4 (.Tiny 1) [.Major0 (.Tiny 9) 9] ∧
    (get_cborize_id_ref (.Major4 (.Tiny 1) [.Major0 (.Tiny 9) 9])).1
        = some (Cbor.clone (.Major0 (.Tiny 9) 9)) ∧
    Cbor.clone (.Major0 (.Tiny 9) 9) = .Major0 (.Tiny 9) 9 :=
  ⟨(C10_no_mutation (.Major4 (.Tiny 1) [.Major0 (.Tiny 9) 9])).1,
   (C10_no_mutation (.Major4 (.Tiny 1) [.Major0 (.Tiny 9) 9])).2 (.Tiny 1)
     (.Major0 (.Tiny 9) 9) [] rfl⟩

/-- C2 fails as stated: a Value with map entries out of Key-Ordering order, or
with a non-canonical stored Info selector, is constructible by the model but
does not survive decode-after-encode, because encode canonicalizes. -/
theorem C2_counterexample :
    decodeCbor (encodeCbor (.Major5 (.Tiny 2)
        [(.U64 1, .Major0 (.Tiny 10) 10), (.U64 0, .Major0 (.Tiny 20) 20)]))
      ≠ .ok ((.Major5 (.Tiny 2)
        [(.U64 1, .Major0 (.Tiny 10) 10), (.U64 0, .Major0 (.Tiny 20) 20)]), []) ∧
    decodeCbor (encodeCbor (.Major0 .U8 5)) ≠ .ok (.Major0 .U8 5, []) := by
  constructor
  · have h : decodeCbor (encodeCbor (.Major5 (.Tiny 2)
        [(.U64 1, .Major0 (.Tiny 10) 10), (.U64 0, .Major0 (.Tiny 20) 20)]))
      = .ok ((.Major5 (.Tiny 2)
        [(.U64 0, .Major0 (.Tiny 20) 20), (.U64 1, .Major0 (.Tiny 10) 10)]), []) := rfl
    rw [h]
    simp
  · have h : decodeCbor (encodeCbor (.Major0 .U8 5)) = .ok (.Major0 (.Tiny 5) 5, []) := rfl
    rw [h]
    simp

/-- C2 (amended): for every canonical-valid Value — stored Info selectors
canonical, map entries strictly Key-Ordering sorted, payloads in range, i.e.
exactly the Values the Decode Engine itself can produce — of nesting depth at
most the recursion limit, decoding the encoding returns the Value exactly,
consuming all bytes. -/
theorem C2_roundtrip :
    ∀ v : Cbor, validCbor v = true → Cbor.depth v ≤ RECURSION_LIMIT →
      decodeCbor (encodeCbor v) = .ok (v, []) := by
  intro v hv hd
  have h := rt_aux (RECURSION_LIMIT + 1) v [] hv (by omega)
  rw [List.append_nil] at h
  exact h

/-- Witness for C2 at a concrete nested value containing an array, a map, a
tag, strings and simple values. -/
theorem C2_witness :
    validCbor (.Major4 (.Tiny 3)
      [.Major5 (.Tiny 1) [(.U64 1, .Major3 (.Tiny 1) [97])],
       .Major6 (.Tiny 2) 2 (.Major2 (.Tiny 1) [255]),
       .Major7 (.Tiny 21) .True]) = true ∧
    Cbor.depth (.Major4 (.Tiny 3)
      [.Major5 (.Tiny 1) [(.U64 1, .Major3 (.Tiny 1) [97])],
       .Major6 (.Tiny 2) 2 (.Major2 (.Tiny 1) [255]),
       .Major7 (.Tiny 21) .True]) ≤ RECURSION_LIMIT ∧
    decodeCbor (encodeCbor (.Major4 (.Tiny 3)
      [.Major5 (.Tiny 1) [(.U64 1, .Major3 (.Tiny 1) [97])],
       .Major6 (.Tiny 2) 2 (.Major2 (.Tiny 1) [255]),
       .Major7 (.Tiny 21) .True]))
      = .ok ((.Major4 (.Tiny 3)
      [.Major5 (.Tiny 1) [(.U64 1, .Major3 (.Tiny 1) [97])],
       .Major6 (.Tiny 2) 2 (.Major2 (.Tiny 1) [255]),
       .Major7 (.Tiny 21) .True]), []) :=
  ⟨rfl, by decide, C2_roundtrip _ rfl (by decide)⟩

/-- C4: decoding a synthetic nest of depth exactly the recursion limit
succeeds; a nest of depth limit + 1 fails with the malformed-encoding
recursion-limit error regardless of the remaining input. -/
theorem C4_depth_guard :
    decodeCbor (nestBytes RECURSION_LIMIT) = .ok (nestVal RECURSION_LIMIT, []) ∧
    (∀ rest : List Nat,
      decodeCbor (List.replicate (RECURSION_LIMIT + 1) 129 ++ rest)
        = .error (.FailCbor "cbor" "recursion limit exceeded")) ∧
    isFailCbor (decodeCbor (nestBytes (RECURSION_LIMIT + 1))) = true := by
  refine ⟨?_, ?_, ?_⟩
  · exact decode_nest_ok RECURSION_LIMIT (RECURSION_LIMIT + 1) [] (by omega)
  · intro rest
    exact decode_nest_err (RECURSION_LIMIT + 1) (RECURSION_LIMIT + 1) rest (by omega)
  · rw [nestBytes, decodeCbor,
      decode_nest_err (RECURSION_LIMIT + 1) (RECURSION_LIMIT + 1) [0] (by omega)]
    rfl

/-- C3: integer encoding always uses the canonical narrowest width — the
encoded size is one header byte plus `widthOf n` extension bytes, `widthOf n`
is one of 0/1/2/4/8, it represents `n` exactly, and no smaller admissible
width does; in particular unsigned 10 encodes as `0x0A` and unsigned 1000 as
`0x19 0x03 0xE8`. -/
theorem C3_minimal_width :
    (∀ (i : Info) (n : Nat), n < 18446744073709551616 →
      (encodeCbor (.Major0 i n)).length = 1 + widthOf n ∧
      (encodeCbor (.Major1 i n)).length = 1 + widthOf n ∧
      fitsWidth (widthOf n) n ∧
      (widthOf n = 0 ∨ widthOf n = 1 ∨ widthOf n = 2 ∨ widthOf n = 4 ∨ widthOf n = 8) ∧
      (∀ w, (w = 0 ∨ w = 1 ∨ w = 2 ∨ w = 4 ∨ w = 8) → fitsWidth w n → widthOf n ≤ w)) ∧
    encodeCbor (.Major0 (.Tiny 10) 10) = [10] ∧
    encodeCbor (.Major0 .U16 1000) = [25, 3, 232] := by
  refine ⟨?_, rfl, rfl⟩
  intro i n hn
  refine ⟨hdr_length 0 n, hdr_length 1 n, ?_, ?_, ?_⟩
  · by_cases h1 : n < 24
    · rw [show widthOf n = 0 from by simp [widthOf, h1]]
      simpa [fitsWidth] using h1
    · by_cases h2 : n < 256
      · rw [show widthOf n = 1 from by simp [widthOf, h1, h2]]
        simpa [fitsWidth] using h2
      · by_cases h3 : n < 65536
        · rw [show widthOf n = 2 from by simp [widthOf, h1, h2, h3]]
          simp [fitsWidth]
          omega
        · by_cases h4 : n < 4294967296
          · rw [show widthOf n = 4 from by simp [widthOf, h1, h2, h3, h4]]
            simp [fitsWidth]
            omega
          · rw [show widthOf n = 8 from by simp [widthOf, h1, h2, h3, h4]]
            simp [fitsWidth]
            omega
  · unfold widthOf
    split_ifs <;> simp
  · intro w hw hf
    rcases hw with rfl | rfl | rfl | rfl | rfl <;>
      simp [fitsWidth] at hf <;>
      unfold widthOf <;>
      split_ifs <;> omega

/-- Witness for C3 at 1000: three bytes total, the 2-byte width is exact and
minimal among the admissible widths. -/
theorem C3_witness :
    (1000 : Nat) < 18446744073709551616 ∧
    (encodeCbor (.Major0 .U16 1000)).length = 1 + widthOf 1000 :=
  ⟨by norm_num, (C3_minimal_width.1 .U16 1000 (by norm_num)).1⟩

/-- C5: map encoding emits entries in the Key Ordering regardless of supplied
order — encodings of permuted duplicate-free entry lists coincide, the emitted
body is the concatenation of a Key-Ordering-sorted permutation of the
serialized entries, and a concrete non-canonically-ordered map decodes
successfully while its re-encoding is the canonical byte sequence, on which
encode-after-decode is idempotent. -/
theorem C5_map_canonicalization :
    (∀ (i1 i2 : Info) (e1 e2 : List (Key × Cbor)),
      List.Pairwise (fun a b => Key.compare a.1 b.1 ≠ .eq) e1 →
      e1.Perm e2 →
      encodeCbor (.Major5 i1 e1) = encodeCbor (.Major5 i2 e2)) ∧
    (∀ (i : Info) (entries : List (Key × Cbor)),
      ∃ l : List (Key × List Nat),
        l.Perm (encodeEntriesC entries) ∧
        List.Pairwise (fun a b : Key × List Nat => Key.compare a.1 b.1 ≠ Ordering.gt) l ∧
        encodeCbor (.Major5 i entries) = hdr 5 entries.length ++ joinSnd l) ∧
    (decodeCbor [162, 1, 10, 0, 20]
        = .ok (.Major5 (.Tiny 2) [(.U64 1, .Major0 (.Tiny 10) 10),
            (.U64 0, .Major0 (.Tiny 20) 20)], []) ∧
      encodeCbor (.Major5 (.Tiny 2) [(.U64 1, .Major0 (.Tiny 10) 10),
            (.U64 0, .Major0 (.Tiny 20) 20)]) = [162, 0, 20, 1, 10] ∧
      decodeCbor [162, 0, 20, 1, 10]
        = .ok (.Major5 (.Tiny 2) [(.U64 0, .Major0 (.Tiny 20) 20),
            (.U64 1, .Major0 (.Tiny 10) 10)], []) ∧
      encodeCbor (.Major5 (.Tiny 2) [(.U64 0, .Major0 (.Tiny 20) 20),
            (.U64 1, .Major0 (.Tiny 10) 10)]) = [162, 0, 20, 1, 10]) := by
  refine ⟨?_, ?_, rfl, rfl, rfl, rfl⟩
  · intro i1 i2 e1 e2 hd hp
    rw [encodeCbor, encodeCbor, hp.length_eq]
    congr 1
    congr 1
    apply sortPairs_perm_eq
    · rw [encodeEntriesC_map]
      exact List.pairwise_map.mpr hd
    · rw [encodeEntriesC_map, encodeEntriesC_map]
      exact hp.map _
  · intro i entries
    haveI : IsTrans (Key × List Nat) kvLe := ⟨fun _ _ _ => kvLe_trans⟩
    haveI : IsTotal (Key × List Nat) kvLe := ⟨kvLe_total⟩
    exact ⟨sortPairs (encodeEntriesC entries),
      List.perm_insertionSort kvLe _,
      List.sorted_insertionSort kvLe _,
      rfl⟩

/-- Witness for C5: two supplied orders of the same two-entry map with
distinct keys encode to the same bytes. -/
theorem C5_witness :
    encodeCbor (.Major5 (.Tiny 2) [(.U64 1, .Major0 (.Tiny 10) 10),
        (.U64 0, .Major0 (.Tiny 20) 20)])
      = encodeCbor (.Major5 (.Tiny 2) [(.U64 0, .Major0 (.Tiny 20) 20),
        (.U64 1, .Major0 (.Tiny 10) 10)]) :=
  C5_map_canonicalization.1 (.Tiny 2) (.Tiny 2) _ _
    (by simp [List.pairwise_cons]; decide)
    (List.Perm.swap _ _ _)

/-- C6: a header with a reserved additional-info code 28/29/30 always fails
decode, and a header advertising more extension bytes than remain fails with
the malformed-encoding error; in particular a 4-byte advertisement followed by
only two bytes. -/
theorem C6_header_errors :
    (∀ (b : Nat) (rest : List Nat), b < 256 →
      (b % 32 = 28 ∨ b % 32 = 29 ∨ b % 32 = 30) →
      isFailCbor (decodeCbor (b :: rest)) = true) ∧
    (∀ (b : Nat) (rest : List Nat), 24 ≤ b % 32 → b % 32 ≤ 27 →
      rest.length < 2 ^ (b % 32 - 24) →
      isFailCbor (decodeCbor (b :: rest)) = true) ∧
    isFailCbor (decodeCbor [26, 0, 0]) = true := by
  refine ⟨?_, ?_, rfl⟩
  · intro b rest _ h
    rw [decodeCbor, decodeItem_header_err RECURSION_LIMIT (readHeader_reserved rest h)]
    rfl
  · intro b rest h24 h27 hlen
    rw [decodeCbor, decodeItem_header_err RECURSION_LIMIT (readHeader_short h24 h27 hlen)]
    rfl

/-- Witness for C6: reserved code 28 fails, and a 2-byte advertisement with
one remaining byte fails. -/
theorem C6_witness :
    isFailCbor (decodeCbor [28]) = true ∧ isFailCbor (decodeCbor [25, 0]) = true :=
  ⟨C6_header_errors.1 28 [] (by norm_num) (by norm_num),
   C6_header_errors.2.1 25 [0] (by norm_num) (by norm_num) (by norm_num)⟩

/-- C7: the Display output of every Error value is exactly its location
prefix, a space, the variant kind name, colon-space, and its message; values
built by the message form of `err_at!` carry a `file:line` prefix and the
given message. -/
theorem C7_error_display :
    (∀ e : Error, e.display = e.prefixOf ++ " " ++ e.kindName ++ ": " ++ e.message) ∧
    (∀ (v : ErrVariant) (file : String) (line : Nat) (msg : String),
      (errAtMsg v file line msg).prefixOf = file ++ ":" ++ toString line ∧
      (errAtMsg v file line msg).message = msg) := by
  constructor
  · intro e
    cases e <;>
      simp [Error.display, Error.prefixOf, Error.kindName, Error.message, String.append_assoc]
  · intro v file line msg
    cases v <;> exact ⟨rfl, rfl⟩

/-- C8: the Key Ordering is a total order — comparison is equality-reflecting,
antisymmetric between `lt` and `gt`, and transitive — and on valid keys two
Keys compare equal exactly when their encodings decode to identical Values. -/
theorem C8_key_total_order :
    (∀ a b : Key, Key.compare a b = .eq ↔ a = b) ∧
    (∀ a b : Key, Key.compare a b = .gt ↔ Key.compare b a = .lt) ∧
    (∀ a b c : Key, Key.compare a b = .lt → Key.compare b c = .lt →
      Key.compare a c = .lt) ∧
    (∀ a b : Key, validKey a = true → validKey b = true →
      (Key.compare a b = .eq ↔
        decodeCbor (encodeKey a) = decodeCbor (encodeKey b))) := by
  refine ⟨fun a b => kc_eq_iff, fun a b => kc_gt_iff, fun a b c => kc_lt_trans, ?_⟩
  intro a b ha hb
  constructor
  · intro h
    rw [kc_eq_iff.mp h]
  · intro h
    rw [decodeCbor_encodeKey a ha, decodeCbor_encodeKey b hb] at h
    simp at h
    exact kc_eq_iff.mpr (toCbor_inj h)

/-- Witness for C8 on two concrete valid keys: they compare unequal and their
encodings decode to different Values. -/
theorem C8_witness :
    validKey (.U64 1) = true ∧ validKey (.Bytes [3]) = true ∧
    (Key.compare (.U64 1) (.Bytes [3]) = .eq ↔
      decodeCbor (encodeKey (.U64 1)) = decodeCbor (encodeKey (.Bytes [3]))) :=
  ⟨rfl, rfl, C8_key_total_order.2.2.2 (.U64 1) (.Bytes [3]) rfl rfl⟩

end Cbordata
